import Mathlib

/-!
Shallow embedding of the analytics dashboard's core logic (`app.py`):
the metrics aggregator `calculate_campaign_metrics` and the greedy budget
allocator `optimize_budget`.  Monetary amounts and ratios are modelled as
rationals; call counts as naturals; the pandas DataFrame of per-campaign
statistics as a list of rows; the Python allocation dict as an insertion
ordered association list.
-/

/-- One cleaned daily campaign record (a row of the "Daily Lead Vendor
Totals" table after `clean_numeric` and date filtering). -/
structure DailyRecord where
  campaign : String
  agency : String
  revenue : ℚ
  leadCost : ℚ
  totalCalls : ℚ
  paidCalls : ℚ
  uniqueSales : ℚ
deriving DecidableEq

/-- One row of the grouped campaign-statistics table produced by
`calculate_campaign_metrics` (the DataFrame index label plus the eight
aggregated columns and the five derived ratio columns). -/
structure CampaignRow where
  name : String
  Total_Revenue : ℚ
  Avg_Daily_Revenue : ℚ
  Total_Cost : ℚ
  Avg_Daily_Cost : ℚ
  Total_Calls : ℚ
  Total_Paid_Calls : ℚ
  Total_Sales : ℚ
  Days_Active : ℚ
  ROAS : ℚ
  Cost_Per_Call : ℚ
  Revenue_Per_Call : ℚ
  Conversion_Rate : ℚ
  Profit_Per_Call : ℚ
deriving DecidableEq

/-- Models the pandas idiom `series.replace(0, 1)` applied to a
denominator before division. -/
def replace0 (x : ℚ) : ℚ := if x = 0 then 1 else x

/-- Insert a string into an ascending-sorted list of strings. -/
def strInsertLe (s : String) : List String → List String
  | [] => [s]
  | t :: rest => if s ≤ t then s :: t :: rest else t :: strInsertLe s rest

/-- Sort a list of strings ascending (insertion sort). -/
def sortStrings : List String → List String
  | [] => []
  | s :: rest => strInsertLe s (sortStrings rest)

/-- The group keys of `df.groupby("Campaign")`: the distinct campaign
names, in ascending order (pandas sorts group keys by default). -/
def groupKeys (df : List DailyRecord) : List String :=
  sortStrings (df.map (·.campaign)).dedup

/-- The aggregated row for the group of records with campaign name `k`:
sums and means of revenue and cost, summed counts, `Date` count as
`Days_Active`, and the derived ratios of lines 111-115 of `app.py`
(each denominator passed through `.replace(0, 1)`). -/
def aggRow (df : List DailyRecord) (k : String) : CampaignRow :=
  let g := df.filter (·.campaign = k)
  let n : ℚ := (g.length : ℚ)
  let tr := (g.map (·.revenue)).sum
  let tc := (g.map (·.leadCost)).sum
  let tcalls := (g.map (·.totalCalls)).sum
  let tpaid := (g.map (·.paidCalls)).sum
  let tsales := (g.map (·.uniqueSales)).sum
  let cpc := tc / replace0 tpaid
  let rpc := tr / replace0 tcalls
  { name := k
    Total_Revenue := tr
    Avg_Daily_Revenue := tr / n
    Total_Cost := tc
    Avg_Daily_Cost := tc / n
    Total_Calls := tcalls
    Total_Paid_Calls := tpaid
    Total_Sales := tsales
    Days_Active := n
    ROAS := tr / replace0 tc
    Cost_Per_Call := cpc
    Revenue_Per_Call := rpc
    Conversion_Rate := tsales / replace0 tcalls * 100
    Profit_Per_Call := rpc - cpc }

/-- `calculate_campaign_metrics(df, agency)`: optionally filter to one
agency (the Python guard `if agency and agency != "All"` is falsy for
`None` and for the empty string), then group by campaign and aggregate. -/
def calculate_campaign_metrics (df : List DailyRecord)
    (agency : Option String) : List CampaignRow :=
  let df' := match agency with
    | some a => if a ≠ "All" ∧ a ≠ "" then df.filter (·.agency = a) else df
    | none => df
  (groupKeys df').map (aggRow df')

/-- The Python `allocation` dict: an insertion-ordered association list
from campaign name to an integer call count. -/
abbrev Alloc := List (String × ℕ)

/-- `allocation.get(campaign, 0)`. -/
def dictGet : Alloc → String → ℕ
  | [], _ => 0
  | (m, w) :: rest, n => if m = n then w else dictGet rest n

/-- `allocation[campaign] = v`: update in place if the key is present
(keeping its position, as a Python dict does), else append. -/
def dictSet : Alloc → String → ℕ → Alloc
  | [], n, v => [(n, v)]
  | (m, w) :: rest, n, v =>
      if m = n then (n, v) :: rest else (m, w) :: dictSet rest n v

/-- The keys of the allocation dict. -/
def allocKeys (a : Alloc) : List String := a.map (·.1)

/-- The capacity ceiling of the incremental phase:
`max_calls = Total_Calls / Days_Active * 1.5`. -/
def maxCallsOf (c : CampaignRow) : ℚ :=
  c.Total_Calls / c.Days_Active * (3 / 2)

/-- Insert a row into a list sorted by `Profit_Per_Call` descending,
after any row with an equal or larger key (stable). -/
def profInsert (c : CampaignRow) : List CampaignRow → List CampaignRow
  | [] => [c]
  | d :: rest =>
      if d.Profit_Per_Call < c.Profit_Per_Call then c :: d :: rest
      else d :: profInsert c rest

/-- `profitable.sort_values("Profit_Per_Call", ascending=False)`. -/
def sortByProfitDesc : List CampaignRow → List CampaignRow
  | [] => []
  | c :: rest => profInsert c (sortByProfitDesc rest)

/-- The seeding phase (lines 128-132): walk the ranked campaigns once;
whenever the remaining budget covers `Cost_Per_Call * min_calls`,
allocate `min_calls` and deduct the cost. -/
def seedPhase (min_calls : ℕ) :
    List CampaignRow → Alloc → ℚ → Alloc × ℚ
  | [], alloc, budget => (alloc, budget)
  | c :: rest, alloc, budget =>
      if c.Cost_Per_Call * (min_calls : ℚ) ≤ budget then
        seedPhase min_calls rest (dictSet alloc c.name min_calls)
          (budget - c.Cost_Per_Call * (min_calls : ℚ))
      else
        seedPhase min_calls rest alloc budget

/-- One scan of the inner `for` loop of the incremental phase: the first
ranked campaign whose current allocation is strictly below its capacity
ceiling and whose one-call cost fits in the remaining budget. -/
def findEligible (alloc : Alloc) (budget : ℚ) :
    List CampaignRow → Option CampaignRow
  | [] => none
  | c :: rest =>
      if (dictGet alloc c.name : ℚ) < maxCallsOf c ∧
          c.Cost_Per_Call ≤ budget then some c
      else findEligible alloc budget rest

/-- The incremental phase (lines 134-147), fuelled: while the remaining
budget is positive, find the first eligible campaign, give it one more
call and deduct its cost; stop when a full scan allocates nothing. -/
def incrLoop (profitable : List CampaignRow) :
    ℕ → Alloc → ℚ → Alloc × ℚ
  | 0, alloc, budget => (alloc, budget)
  | fuel + 1, alloc, budget =>
      if 0 < budget then
        match findEligible alloc budget profitable with
        | some c =>
            incrLoop profitable fuel
              (dictSet alloc c.name (dictGet alloc c.name + 1))
              (budget - c.Cost_Per_Call)
        | none => (alloc, budget)
      else (alloc, budget)

/-- An integer capacity cap for one row, used only to size the fuel. -/
def ceilCap (c : CampaignRow) : ℕ := (Int.ceil (maxCallsOf c)).toNat

/-- Fuel that provably suffices for the incremental loop to reach its
exit condition: the sum of all rows' integer capacity caps. -/
def fuelBound (profitable : List CampaignRow) : ℕ :=
  (profitable.map ceilCap).sum

/-- `optimize_budget` with `extra` fuel beyond the sufficient bound
(the extra fuel is provably irrelevant; see the termination theorem). -/
def optimize_budget_fuel (extra : ℕ) (campaign_stats : List CampaignRow)
    (daily_budget : ℚ) (min_calls : ℕ) (min_roas : ℚ) :
    Option Alloc × ℚ :=
  let profitable := campaign_stats.filter (fun c => min_roas ≤ c.ROAS)
  if profitable.isEmpty then (none, daily_budget)
  else
    let sorted := sortByProfitDesc profitable
    let seeded := seedPhase min_calls sorted [] daily_budget
    let final := incrLoop sorted (fuelBound sorted + extra) seeded.1 seeded.2
    (some final.1, final.2)

/-- `optimize_budget(campaign_stats, daily_budget, min_calls=1,
min_roas=1.0)` (lines 119-149 of `app.py`). -/
def optimize_budget (campaign_stats : List CampaignRow)
    (daily_budget : ℚ) (min_calls : ℕ := 1) (min_roas : ℚ := 1) :
    Option Alloc × ℚ :=
  optimize_budget_fuel 0 campaign_stats daily_budget min_calls min_roas

/-- `Cost_Per_Call[n]`: the cost column of the statistics table at
campaign label `n` (0 if the label is absent). -/
def costOf (stats : List CampaignRow) (n : String) : ℚ :=
  ((stats.find? (fun c => c.name = n)).map (·.Cost_Per_Call)).getD 0

/-- `sum(allocation[c] * Cost_Per_Call[c] for c in allocation)`. -/
def allocSpend (stats : List CampaignRow) (a : Alloc) : ℚ :=
  (a.map (fun p => (p.2 : ℚ) * costOf stats p.1)).sum

/-- The spend of an optional allocation (a null allocation spends 0). -/
def spendOf (stats : List CampaignRow) : Option Alloc → ℚ
  | none => 0
  | some a => allocSpend stats a

/-- Row fixture: a campaign-statistics row with the fields `optimize_budget`
reads; the unused aggregate columns are zero. -/
def mkRow (n : String) (roas cpc tcalls days profit : ℚ) : CampaignRow :=
  { name := n, Total_Revenue := 0, Avg_Daily_Revenue := 0, Total_Cost := 0,
    Avg_Daily_Cost := 0, Total_Calls := tcalls, Total_Paid_Calls := 0,
    Total_Sales := 0, Days_Active := days, ROAS := roas, Cost_Per_Call := cpc,
    Revenue_Per_Call := 0, Conversion_Rate := 0, Profit_Per_Call := profit }

/-- Campaign A of the spec's two-campaign optimizer scenario. -/
def rowA5 : CampaignRow := mkRow "A" (3 / 2) 10 100 10 5

/-- Campaign B of the spec's two-campaign optimizer scenario. -/
def rowB5 : CampaignRow := mkRow "B" (6 / 5) 5 50 10 1

/-- The statistics table of the spec's two-campaign optimizer scenario. -/
def statsC5 : List CampaignRow := [rowA5, rowB5]

/-- A table whose only campaign has capacity ceiling 0 (`Total_Calls = 0`)
but still qualifies under the ROAS screen. -/
def statsZ : List CampaignRow := [mkRow "Z" 1 1 0 1 0]

/-- A table on which the second-ranked campaign cannot afford
`min_calls = 2` during seeding but can afford a single incremental call. -/
def statsSkip : List CampaignRow :=
  [mkRow "A" 1 10 10 10 5, mkRow "B" 1 6 50 10 1]

/-- A table whose best ROAS is 1.5 (used against `min_roas = 2`). -/
def statsLowRoas : List CampaignRow :=
  [mkRow "A" (3 / 2) 10 100 10 5, mkRow "B" (6 / 5) 5 50 10 1]

/-- A qualifying campaign with a small capacity ceiling. -/
def rowMixA : CampaignRow := mkRow "A" (3 / 2) 10 10 10 5

/-- A campaign whose ROAS 0.5 falls below a threshold of 1. -/
def rowMixL : CampaignRow := mkRow "L" (1 / 2) 5 50 10 1

/-- A table with one qualifying and one disqualified campaign. -/
def statsMixed : List CampaignRow := [rowMixA, rowMixL]

/-- Two daily records of one campaign, revenues 100 and 200, lead costs
50 and 50 (the spec's aggregation scenario). -/
def recsAgg : List DailyRecord :=
  [⟨"X", "Ag", 100, 50, 0, 0, 0⟩, ⟨"X", "Ag", 200, 50, 0, 0, 0⟩]

/-- One daily record whose cost, call and paid-call fields are all zero. -/
def recsZero : List DailyRecord := [⟨"X", "Ag", 5, 0, 0, 0, 3⟩]

/-- Remaining capacity of one row under an allocation, used as a
termination measure for the incremental loop. -/
def capLeft (a : Alloc) (c : CampaignRow) : ℕ :=
  (Int.ceil (maxCallsOf c) - (dictGet a c.name : ℤ)).toNat

/-- Total remaining capacity of the ranked table: a strictly decreasing
measure of the incremental loop. -/
def loopMeasure (pr : List CampaignRow) (a : Alloc) : ℕ :=
  (pr.map (capLeft a)).sum

theorem dictGet_dictSet (a : Alloc) (n m : String) (v : ℕ) :
    dictGet (dictSet a n v) m = if n = m then v else dictGet a m := by
  induction a with
  | nil =>
      by_cases h : n = m <;> simp [dictSet, dictGet, h]
  | cons p rest ih =>
      obtain ⟨pn, pv⟩ := p
      by_cases hpn : pn = n
      · subst hpn
        by_cases hm : pn = m <;> simp [dictSet, dictGet, hm]
      · by_cases hm : pn = m
        · subst hm
          have hnm : ¬ n = pn := fun h => hpn h.symm
          simp [dictSet, dictGet, hpn, hnm]
        · simp [dictSet, dictGet, hpn, hm, ih]

theorem mem_dictSet {a : Alloc} {n : String} {v : ℕ} {p : String × ℕ} :
    p ∈ dictSet a n v → p = (n, v) ∨ p ∈ a := by
  induction a with
  | nil => intro h; simpa [dictSet] using h
  | cons q rest ih =>
      intro h
      obtain ⟨qn, qv⟩ := q
      by_cases hqn : qn = n
      · subst hqn
        simp only [dictSet, if_pos rfl] at h
        cases h with
        | head => exact Or.inl rfl
        | tail _ h2 => exact Or.inr (List.mem_cons_of_mem _ h2)
      · simp only [dictSet, if_neg hqn] at h
        cases h with
        | head => exact Or.inr (List.mem_cons_self _ _)
        | tail _ h2 =>
            cases ih h2 with
            | inl h3 => exact Or.inl h3
            | inr h4 => exact Or.inr (List.mem_cons_of_mem _ h4)

theorem findEligible_spec {alloc : Alloc} {b : ℚ} {l : List CampaignRow}
    {c : CampaignRow} (h : findEligible alloc b l = some c) :
    c ∈ l ∧ (dictGet alloc c.name : ℚ) < maxCallsOf c ∧ c.Cost_Per_Call ≤ b := by
  induction l with
  | nil => simp [findEligible] at h
  | cons d rest ih =>
      by_cases hd : (dictGet alloc d.name : ℚ) < maxCallsOf d ∧ d.Cost_Per_Call ≤ b
      · simp only [findEligible, if_pos hd, Option.some.injEq] at h
        subst h
        exact ⟨List.mem_cons_self _ _, hd⟩
      · simp only [findEligible, if_neg hd] at h
        obtain ⟨hm, hrest⟩ := ih h
        exact ⟨List.mem_cons_of_mem _ hm, hrest⟩

theorem seedPhase_forall (P : String × ℕ → Prop) (mc : ℕ) :
    ∀ (l : List CampaignRow) (a : Alloc) (b : ℚ),
      (∀ p ∈ a, P p) → (∀ c ∈ l, P (c.name, mc)) →
      ∀ p ∈ (seedPhase mc l a b).1, P p := by
  intro l
  induction l with
  | nil => intro a b ha _ p hp; exact ha p hp
  | cons c rest ih =>
      intro a b ha hl p hp
      by_cases hc : c.Cost_Per_Call * (mc : ℚ) ≤ b
      · simp only [seedPhase, if_pos hc] at hp
        refine ih _ _ ?_ (fun d hd => hl d (List.mem_cons_of_mem _ hd)) p hp
        intro q hq
        rcases mem_dictSet hq with hq' | hq'
        · exact hq' ▸ hl c (List.mem_cons_self _ _)
        · exact ha q hq'
      · simp only [seedPhase, if_neg hc] at hp
        exact ih _ _ ha (fun d hd => hl d (List.mem_cons_of_mem _ hd)) p hp

theorem incrLoop_forall (P : String × ℕ → Prop) (pr : List CampaignRow)
    (hstep : ∀ c ∈ pr, ∀ k : ℕ, (k : ℚ) < maxCallsOf c → P (c.name, k + 1)) :
    ∀ (fuel : ℕ) (a : Alloc) (b : ℚ), (∀ p ∈ a, P p) →
      ∀ p ∈ (incrLoop pr fuel a b).1, P p := by
  intro fuel
  induction fuel with
  | zero => intro a b ha p hp; exact ha p (by simpa [incrLoop] using hp)
  | succ fuel ih =>
      intro a b ha p hp
      by_cases hb : 0 < b
      · rcases hfe : findEligible a b pr with _ | c
        · simp only [incrLoop, if_pos hb, hfe] at hp
          exact ha p hp
        · simp only [incrLoop, if_pos hb, hfe] at hp
          obtain ⟨hmem, hlt, _⟩ := findEligible_spec hfe
          refine ih _ _ ?_ p hp
          intro q hq
          rcases mem_dictSet hq with hq' | hq'
          · exact hq' ▸ hstep c hmem _ hlt
          · exact ha q hq'
      · simp only [incrLoop, if_neg hb] at hp
        exact ha p hp

theorem costOf_eq {stats : List CampaignRow}
    (hn : (stats.map (·.name)).Nodup) {c : CampaignRow} (hc : c ∈ stats) :
    costOf stats c.name = c.Cost_Per_Call := by
  induction stats with
  | nil => cases hc
  | cons d rest ih =>
      simp only [List.map_cons, List.nodup_cons] at hn
      by_cases hdc : d.name = c.name
      · have hcd : c = d := by
          cases hc with
          | head => rfl
          | tail _ hm =>
              exact absurd (hdc ▸ List.mem_map_of_mem (·.name) hm) hn.1
        subst hcd
        simp [costOf, List.find?]
      · have hm : c ∈ rest := by
          cases hc with
          | head => exact absurd rfl hdc
          | tail _ hm => exact hm
        have : costOf (d :: rest) c.name = costOf rest c.name := by
          simp [costOf, List.find?, hdc]
        rw [this]
        exact ih hn.2 hm

theorem allocSpend_dictSet (stats : List CampaignRow) (a : Alloc)
    (n : String) (k : ℕ) :
    allocSpend stats (dictSet a n (dictGet a n + k))
      = allocSpend stats a + (k : ℚ) * costOf stats n := by
  induction a with
  | nil => simp [allocSpend, dictSet, dictGet]
  | cons q rest ih =>
      obtain ⟨qn, qv⟩ := q
      by_cases hqn : qn = n
      · subst hqn
        have hset : dictSet ((qn, qv) :: rest) qn
              (dictGet ((qn, qv) :: rest) qn + k)
            = (qn, qv + k) :: rest := by
          simp [dictSet, dictGet]
        rw [hset]
        simp only [allocSpend, List.map_cons, List.sum_cons]
        push_cast
        ring
      · have hget : dictGet ((qn, qv) :: rest) n = dictGet rest n := by
          simp [dictGet, hqn]
        have hset : dictSet ((qn, qv) :: rest) n (dictGet rest n + k)
            = (qn, qv) :: dictSet rest n (dictGet rest n + k) := by
          simp [dictSet, hqn]
        rw [hget, hset]
        simp only [allocSpend, List.map_cons, List.sum_cons] at ih ⊢
        rw [ih]
        ring

theorem seedPhase_snd_nonneg (mc : ℕ) :
    ∀ (l : List CampaignRow) (a : Alloc) (b : ℚ),
      0 ≤ b → 0 ≤ (seedPhase mc l a b).2 := by
  intro l
  induction l with
  | nil => intro a b hb; simpa [seedPhase] using hb
  | cons c rest ih =>
      intro a b hb
      by_cases hc : c.Cost_Per_Call * (mc : ℚ) ≤ b
      · simp only [seedPhase, if_pos hc]
        exact ih _ _ (by linarith)
      · simp only [seedPhase, if_neg hc]
        exact ih _ _ hb

theorem seedPhase_spend (stats : List CampaignRow) (mc : ℕ) :
    ∀ (l : List CampaignRow) (a : Alloc) (b : ℚ),
      (l.map (·.name)).Nodup →
      (∀ c ∈ l, dictGet a c.name = 0) →
      (∀ c ∈ l, costOf stats c.name = c.Cost_Per_Call) →
      allocSpend stats (seedPhase mc l a b).1 + (seedPhase mc l a b).2
        = allocSpend stats a + b := by
  intro l
  induction l with
  | nil => intro a b _ _ _; simp [seedPhase]
  | cons c rest ih =>
      intro a b hnd h0 hco
      simp only [List.map_cons, List.nodup_cons] at hnd
      have h0tail : ∀ d ∈ rest, dictGet (dictSet a c.name mc) d.name = 0 := by
        intro d hd
        rw [dictGet_dictSet]
        have hne : ¬ c.name = d.name := fun h =>
          hnd.1 (h ▸ List.mem_map_of_mem (·.name) hd)
        rw [if_neg hne]
        exact h0 d (List.mem_cons_of_mem _ hd)
      by_cases hc : c.Cost_Per_Call * (mc : ℚ) ≤ b
      · simp only [seedPhase, if_pos hc]
        rw [ih _ _ hnd.2 h0tail
          (fun d hd => hco d (List.mem_cons_of_mem _ hd))]
        have hset : dictSet a c.name mc
            = dictSet a c.name (dictGet a c.name + mc) := by
          rw [h0 c (List.mem_cons_self _ _), Nat.zero_add]
        rw [hset, allocSpend_dictSet, hco c (List.mem_cons_self _ _)]
        ring
      · simp only [seedPhase, if_neg hc]
        exact ih _ _ hnd.2 (fun d hd => h0 d (List.mem_cons_of_mem _ hd))
          (fun d hd => hco d (List.mem_cons_of_mem _ hd))

theorem incrLoop_snd_nonneg (pr : List CampaignRow) :
    ∀ (fuel : ℕ) (a : Alloc) (b : ℚ), 0 ≤ b → 0 ≤ (incrLoop pr fuel a b).2 := by
  intro fuel
  induction fuel with
  | zero => intro a b hb; simpa [incrLoop] using hb
  | succ fuel ih =>
      intro a b hb
      by_cases hbpos : 0 < b
      · rcases hfe : findEligible a b pr with _ | c
        · simpa [incrLoop, hbpos, hfe] using hb
        · obtain ⟨_, _, hcost⟩ := findEligible_spec hfe
          simp only [incrLoop, if_pos hbpos, hfe]
          exact ih _ _ (by linarith)
      · simpa [incrLoop, hbpos] using hb

theorem incrLoop_spend (stats pr : List CampaignRow)
    (hco : ∀ c ∈ pr, costOf stats c.name = c.Cost_Per_Call) :
    ∀ (fuel : ℕ) (a : Alloc) (b : ℚ),
      allocSpend stats (incrLoop pr fuel a b).1 + (incrLoop pr fuel a b).2
        = allocSpend stats a + b := by
  intro fuel
  induction fuel with
  | zero => intro a b; simp [incrLoop]
  | succ fuel ih =>
      intro a b
      by_cases hbpos : 0 < b
      · rcases hfe : findEligible a b pr with _ | c
        · simp [incrLoop, hbpos, hfe]
        · obtain ⟨hmem, _, _⟩ := findEligible_spec hfe
          simp only [incrLoop, if_pos hbpos, hfe]
          rw [ih, allocSpend_dictSet, hco c hmem]
          push_cast
          ring
      · simp [incrLoop, hbpos]

theorem profInsert_perm (c : CampaignRow) (l : List CampaignRow) :
    (profInsert c l).Perm (c :: l) := by
  induction l with
  | nil => simp [profInsert]
  | cons d rest ih =>
      by_cases hd : d.Profit_Per_Call < c.Profit_Per_Call
      · simp [profInsert, hd]
      · simp only [profInsert, if_neg hd]
        exact (ih.cons d).trans (List.Perm.swap c d rest)

theorem sortByProfitDesc_perm (l : List CampaignRow) :
    (sortByProfitDesc l).Perm l := by
  induction l with
  | nil => simp [sortByProfitDesc]
  | cons c rest ih =>
      exact (profInsert_perm c (sortByProfitDesc rest)).trans (ih.cons c)

theorem strInsertLe_perm (s : String) (l : List String) :
    (strInsertLe s l).Perm (s :: l) := by
  induction l with
  | nil => simp [strInsertLe]
  | cons t rest ih =>
      by_cases ht : s ≤ t
      · simp [strInsertLe, ht]
      · simp only [strInsertLe, if_neg ht]
        exact (ih.cons t).trans (List.Perm.swap s t rest)

theorem sortStrings_perm (l : List String) : (sortStrings l).Perm l := by
  induction l with
  | nil => simp [sortStrings]
  | cons s rest ih =>
      exact (strInsertLe_perm s (sortStrings rest)).trans (ih.cons s)

theorem capLeft_pos {a : Alloc} {c : CampaignRow}
    (h : (dictGet a c.name : ℚ) < maxCallsOf c) : 1 ≤ capLeft a c := by
  have hlt : (dictGet a c.name : ℤ) < Int.ceil (maxCallsOf c) := by
    rw [Int.lt_ceil]
    push_cast
    exact h
  unfold capLeft
  omega

theorem capLeft_update_le (a : Alloc) (n : String) (d : CampaignRow) :
    capLeft (dictSet a n (dictGet a n + 1)) d ≤ capLeft a d := by
  unfold capLeft
  rw [dictGet_dictSet]
  by_cases hn : n = d.name
  · subst hn
    rw [if_pos rfl]
    omega
  · rw [if_neg hn]

theorem capLeft_update_lt {a : Alloc} {c : CampaignRow}
    (h : (dictGet a c.name : ℚ) < maxCallsOf c) :
    capLeft (dictSet a c.name (dictGet a c.name + 1)) c < capLeft a c := by
  have h1 := capLeft_pos h
  unfold capLeft at h1 ⊢
  rw [dictGet_dictSet, if_pos rfl]
  omega

theorem loopMeasure_update_le (pr : List CampaignRow) (a : Alloc) (n : String) :
    loopMeasure pr (dictSet a n (dictGet a n + 1)) ≤ loopMeasure pr a := by
  induction pr with
  | nil => simp [loopMeasure]
  | cons d rest ih =>
      simp only [loopMeasure, List.map_cons, List.sum_cons] at ih ⊢
      exact Nat.add_le_add (capLeft_update_le a n d) ih

theorem capLeft_le_loopMeasure {pr : List CampaignRow} {c : CampaignRow}
    (hc : c ∈ pr) (a : Alloc) : capLeft a c ≤ loopMeasure pr a := by
  induction pr with
  | nil => cases hc
  | cons d rest ih =>
      simp only [loopMeasure, List.map_cons, List.sum_cons]
      cases hc with
      | head => exact Nat.le_add_right _ _
      | tail _ hm =>
          calc capLeft a c ≤ (rest.map (capLeft a)).sum := ih hm
            _ ≤ _ := Nat.le_add_left _ _

theorem loopMeasure_decrease {pr : List CampaignRow} {a : Alloc}
    {c : CampaignRow} (hc : c ∈ pr)
    (hlt : (dictGet a c.name : ℚ) < maxCallsOf c) :
    loopMeasure pr (dictSet a c.name (dictGet a c.name + 1))
      < loopMeasure pr a := by
  induction pr with
  | nil => cases hc
  | cons d rest ih =>
      simp only [loopMeasure, List.map_cons, List.sum_cons]
      cases hc with
      | head =>
          exact Nat.add_lt_add_of_lt_of_le (capLeft_update_lt hlt)
            (loopMeasure_update_le rest a c.name)
      | tail _ hm =>
          exact Nat.add_lt_add_of_le_of_lt (capLeft_update_le a c.name d)
            (ih hm)

theorem loopMeasure_le_fuelBound (pr : List CampaignRow) (a : Alloc) :
    loopMeasure pr a ≤ fuelBound pr := by
  induction pr with
  | nil => simp [loopMeasure, fuelBound]
  | cons d rest ih =>
      simp only [loopMeasure, fuelBound, List.map_cons, List.sum_cons] at ih ⊢
      refine Nat.add_le_add ?_ ih
      unfold capLeft ceilCap
      omega

theorem incrLoop_succ (pr : List CampaignRow) :
    ∀ (fuel : ℕ) (a : Alloc) (b : ℚ), loopMeasure pr a ≤ fuel →
      incrLoop pr (fuel + 1) a b = incrLoop pr fuel a b := by
  intro fuel
  induction fuel with
  | zero =>
      intro a b hm
      by_cases hb : 0 < b
      · rcases hfe : findEligible a b pr with _ | c
        · simp [incrLoop, hb, hfe]
        · obtain ⟨hmem, hlt, _⟩ := findEligible_spec hfe
          have h1 : 1 ≤ loopMeasure pr a :=
            le_trans (capLeft_pos hlt) (capLeft_le_loopMeasure hmem a)
          omega
      · simp [incrLoop, hb]
  | succ fuel ih =>
      intro a b hm
      by_cases hb : 0 < b
      · rcases hfe : findEligible a b pr with _ | c
        · simp [incrLoop, hb, hfe]
        · obtain ⟨hmem, hlt, _⟩ := findEligible_spec hfe
          have hdec := loopMeasure_decrease hmem hlt
          simp only [incrLoop, if_pos hb, hfe]
          exact ih _ _ (by omega)
      · simp [incrLoop, hb]

theorem incrLoop_fuel_add (pr : List CampaignRow) (fuel : ℕ) (a : Alloc)
    (b : ℚ) (hm : loopMeasure pr a ≤ fuel) (extra : ℕ) :
    incrLoop pr (fuel + extra) a b = incrLoop pr fuel a b := by
  induction extra with
  | zero => rfl
  | succ extra ih =>
      have : fuel + (extra + 1) = (fuel + extra) + 1 := by omega
      rw [this, incrLoop_succ pr (fuel + extra) a b (by omega), ih]

theorem mem_sorted_filter {stats : List CampaignRow} {mr : ℚ}
    {c : CampaignRow}
    (hc : c ∈ sortByProfitDesc (stats.filter (fun d => mr ≤ d.ROAS))) :
    c ∈ stats ∧ mr ≤ c.ROAS := by
  have hm := (sortByProfitDesc_perm _).mem_iff.mp hc
  have h2 := List.mem_filter.mp hm
  exact ⟨h2.1, by simpa using h2.2⟩

theorem sorted_names_nodup {stats : List CampaignRow} {mr : ℚ}
    (hn : (stats.map (·.name)).Nodup) :
    ((sortByProfitDesc (stats.filter (fun d => mr ≤ d.ROAS))).map
      (·.name)).Nodup := by
  have hperm := (sortByProfitDesc_perm
    (stats.filter (fun d => mr ≤ d.ROAS))).map (·.name)
  refine hperm.nodup_iff.mpr ?_
  exact hn.sublist ((List.filter_sublist _).map _)

/-- Claim C3: if no campaign in the input table has `ROAS >= min_roas`,
`optimize_budget` returns a null allocation and the full budget as
leftover. -/
theorem no_qualifying_campaigns_null (stats : List CampaignRow) (b : ℚ)
    (mc : ℕ) (mr : ℚ) (h : ∀ c ∈ stats, c.ROAS < mr) :
    optimize_budget stats b mc mr = (none, b) := by
  have hfilter : stats.filter (fun c => mr ≤ c.ROAS) = [] := by
    rw [List.filter_eq_nil_iff]
    intro c hc
    simpa using not_le.mpr (h c hc)
  unfold optimize_budget optimize_budget_fuel
  rw [hfilter]
  rfl

/-- Claim C1: for nonnegative per-call costs and a nonnegative daily
budget, the allocation's spend never exceeds the budget and the returned
leftover is exactly the budget minus the spend. -/
theorem optimize_budget_spend_le_budget (stats : List CampaignRow)
    (b : ℚ) (mc : ℕ) (mr : ℚ)
    (hn : (stats.map (·.name)).Nodup)
    (hcost : ∀ c ∈ stats, 0 ≤ c.Cost_Per_Call) (hb : 0 ≤ b) :
    spendOf stats (optimize_budget stats b mc mr).1 ≤ b ∧
      (optimize_budget stats b mc mr).2
        = b - spendOf stats (optimize_budget stats b mc mr).1 := by
  unfold optimize_budget optimize_budget_fuel
  by_cases hemp : (stats.filter (fun c => mr ≤ c.ROAS)).isEmpty
  · simp [hemp, spendOf, hb]
  · simp only [hemp, Bool.false_eq_true, if_false, spendOf]
    have hco : ∀ c ∈ sortByProfitDesc (stats.filter (fun d => mr ≤ d.ROAS)),
        costOf stats c.name = c.Cost_Per_Call := fun c hc =>
      costOf_eq hn (mem_sorted_filter hc).1
    have hnd := @sorted_names_nodup stats mr hn
    have hseed := seedPhase_spend stats mc
      (sortByProfitDesc (stats.filter (fun d => mr ≤ d.ROAS))) [] b
      hnd (fun c _ => rfl) hco
    have hseednn := seedPhase_snd_nonneg mc
      (sortByProfitDesc (stats.filter (fun d => mr ≤ d.ROAS))) [] b hb
    have hincr := incrLoop_spend stats
      (sortByProfitDesc (stats.filter (fun d => mr ≤ d.ROAS))) hco
      (fuelBound (sortByProfitDesc (stats.filter (fun d => mr ≤ d.ROAS))) + 0)
      (seedPhase mc (sortByProfitDesc
        (stats.filter (fun d => mr ≤ d.ROAS))) [] b).1
      (seedPhase mc (sortByProfitDesc
        (stats.filter (fun d => mr ≤ d.ROAS))) [] b).2
    have hincnn := incrLoop_snd_nonneg
      (sortByProfitDesc (stats.filter (fun d => mr ≤ d.ROAS)))
      (fuelBound (sortByProfitDesc (stats.filter (fun d => mr ≤ d.ROAS))) + 0)
      (seedPhase mc (sortByProfitDesc
        (stats.filter (fun d => mr ≤ d.ROAS))) [] b).1
      (seedPhase mc (sortByProfitDesc
        (stats.filter (fun d => mr ≤ d.ROAS))) [] b).2
      hseednn
    have hnil : allocSpend stats ([] : Alloc) = 0 := by simp [allocSpend]
    rw [hnil] at hseed
    constructor
    · linarith
    · linarith

theorem alloc_entry_qualifies {stats : List CampaignRow} {b : ℚ} {mc : ℕ}
    {mr : ℚ} {a : Alloc}
    (ha : (optimize_budget stats b mc mr).1 = some a) :
    ∀ p ∈ a, ∃ d ∈ stats, d.name = p.1 ∧ mr ≤ d.ROAS := by
  unfold optimize_budget optimize_budget_fuel at ha
  by_cases hemp : (stats.filter (fun c => mr ≤ c.ROAS)).isEmpty
  · simp [hemp] at ha
  · simp only [hemp, Bool.false_eq_true, if_false, Option.some.injEq] at ha
    subst ha
    apply incrLoop_forall (fun p => ∃ d ∈ stats, d.name = p.1 ∧ mr ≤ d.ROAS)
    · intro c hc k _
      obtain ⟨hm, hr⟩ := mem_sorted_filter hc
      exact ⟨c, hm, rfl, hr⟩
    · apply seedPhase_forall (fun p => ∃ d ∈ stats, d.name = p.1 ∧ mr ≤ d.ROAS)
      · intro p hp
        cases hp
      · intro c hc
        obtain ⟨hm, hr⟩ := mem_sorted_filter hc
        exact ⟨c, hm, rfl, hr⟩

/-- Claim C4: a campaign whose ROAS is strictly below `min_roas` never
appears as a key of the returned allocation. -/
theorem low_roas_never_allocated (stats : List CampaignRow) (b : ℚ)
    (mc : ℕ) (mr : ℚ) (hn : (stats.map (·.name)).Nodup)
    {c : CampaignRow} (hc : c ∈ stats) (hlow : c.ROAS < mr)
    {a : Alloc} (ha : (optimize_budget stats b mc mr).1 = some a) :
    c.name ∉ allocKeys a := by
  intro hkey
  obtain ⟨p, hp, hpn⟩ := List.mem_map.mp hkey
  obtain ⟨d, hd, hdn, hdr⟩ := alloc_entry_qualifies ha p hp
  have hcd : d = c := List.inj_on_of_nodup_map hn hd hc (by rw [hdn, hpn])
  rw [hcd] at hdr
  exact absurd hdr (not_le.mpr hlow)

/-- Claim C2 (amended): every allocated call count is bounded by the
maximum of `min_calls` and the ceiling of the campaign's capacity
`Total_Calls / Days_Active * 1.5`; the seeding phase can push an entry up
to `min_calls` without any ceiling check, the incremental phase never
pushes an entry past the ceiling's ceiling. -/
theorem alloc_le_max_min_calls_cap (stats : List CampaignRow) (b : ℚ)
    (mc : ℕ) (mr : ℚ) (hn : (stats.map (·.name)).Nodup)
    {a : Alloc} (ha : (optimize_budget stats b mc mr).1 = some a) :
    ∀ p ∈ a, ∃ c ∈ stats, c.name = p.1 ∧
      (p.2 : ℤ) ≤ max (mc : ℤ) (Int.ceil (maxCallsOf c)) := by
  unfold optimize_budget optimize_budget_fuel at ha
  by_cases hemp : (stats.filter (fun c => mr ≤ c.ROAS)).isEmpty
  · simp [hemp] at ha
  · simp only [hemp, Bool.false_eq_true, if_false, Option.some.injEq] at ha
    subst ha
    apply incrLoop_forall (fun p => ∃ c ∈ stats, c.name = p.1 ∧
      (p.2 : ℤ) ≤ max (mc : ℤ) (Int.ceil (maxCallsOf c)))
    · intro c hc k hk
      refine ⟨c, (mem_sorted_filter hc).1, rfl, ?_⟩
      have hce : (k : ℤ) < Int.ceil (maxCallsOf c) := by
        rw [Int.lt_ceil]
        push_cast
        exact hk
      have : ((k + 1 : ℕ) : ℤ) ≤ Int.ceil (maxCallsOf c) := by
        push_cast
        omega
      exact le_trans this (le_max_right _ _)
    · apply seedPhase_forall (fun p => ∃ c ∈ stats, c.name = p.1 ∧
        (p.2 : ℤ) ≤ max (mc : ℤ) (Int.ceil (maxCallsOf c)))
      · intro p hp
        cases hp
      · intro c hc
        exact ⟨c, (mem_sorted_filter hc).1, rfl, le_max_left _ _⟩

/-- Claim C6 (amended): with `min_calls >= 1` every campaign appearing in
the allocation holds at least one call; the `min_calls` floor itself is
only guaranteed for campaigns seeded in the seeding phase, not for
campaigns first allocated by the incremental phase. -/
theorem alloc_entries_positive (stats : List CampaignRow) (b : ℚ)
    (mc : ℕ) (mr : ℚ) (hmc : 1 ≤ mc)
    {a : Alloc} (ha : (optimize_budget stats b mc mr).1 = some a) :
    ∀ p ∈ a, 1 ≤ p.2 := by
  unfold optimize_budget optimize_budget_fuel at ha
  by_cases hemp : (stats.filter (fun c => mr ≤ c.ROAS)).isEmpty
  · simp [hemp] at ha
  · simp only [hemp, Bool.false_eq_true, if_false, Option.some.injEq] at ha
    subst ha
    apply incrLoop_forall (fun p => 1 ≤ p.2)
    · intro c _ k _
      omega
    · apply seedPhase_forall (fun p => 1 ≤ p.2)
      · intro p hp
        cases hp
      · intro c _
        exact hmc

/-- Claim C10: when every qualifying row has positive `Days_Active` and
nonnegative `Cost_Per_Call`, the incremental loop of `optimize_budget`
terminates: running it with any amount of extra fuel beyond the
sufficient bound returns the same allocation and leftover. -/
theorem optimize_budget_terminates (stats : List CampaignRow) (b : ℚ)
    (mc : ℕ) (mr : ℚ)
    (hdays : ∀ c ∈ stats, mr ≤ c.ROAS → 0 < c.Days_Active)
    (hcost : ∀ c ∈ stats, mr ≤ c.ROAS → 0 ≤ c.Cost_Per_Call) :
    ∀ extra : ℕ,
      optimize_budget_fuel extra stats b mc mr
        = optimize_budget stats b mc mr := by
  intro extra
  unfold optimize_budget optimize_budget_fuel
  by_cases hemp : (stats.filter (fun c => mr ≤ c.ROAS)).isEmpty
  · simp [hemp]
  · simp only [hemp, Bool.false_eq_true, if_false]
    rw [incrLoop_fuel_add _ _ _ _ (loopMeasure_le_fuelBound _ _) extra,
      incrLoop_fuel_add _ _ _ _ (loopMeasure_le_fuelBound _ _) 0]

theorem replace0_ne_zero (x : ℚ) : replace0 x ≠ 0 := by
  unfold replace0
  by_cases h : x = 0
  · simp [h]
  · simp [h]

theorem aggRow_guard (df : List DailyRecord) (k : String) :
    ((aggRow df k).Total_Cost = 0
        → (aggRow df k).ROAS = (aggRow df k).Total_Revenue) ∧
      ((aggRow df k).Total_Paid_Calls = 0
        → (aggRow df k).Cost_Per_Call = (aggRow df k).Total_Cost) ∧
      ((aggRow df k).Total_Calls = 0
        → (aggRow df k).Revenue_Per_Call = (aggRow df k).Total_Revenue
          ∧ (aggRow df k).Conversion_Rate = (aggRow df k).Total_Sales * 100) := by
  refine ⟨?_, ?_, ?_⟩
  · intro h0
    dsimp only [aggRow] at h0 ⊢
    rw [h0]
    simp [replace0]
  · intro h0
    dsimp only [aggRow] at h0 ⊢
    rw [h0]
    simp [replace0]
  · intro h0
    dsimp only [aggRow] at h0 ⊢
    rw [h0]
    simp [replace0]

/-- Claim C7: every ratio of `calculate_campaign_metrics` whose true
denominator is zero is computed with denominator 1 instead, so a zero
`Total_Cost` gives `ROAS = Total_Revenue`, a zero `Total_Paid_Calls`
gives `Cost_Per_Call = Total_Cost`, a zero `Total_Calls` gives
`Revenue_Per_Call = Total_Revenue` and
`Conversion_Rate = Total_Sales * 100`, and the effective denominators
are never zero. -/
theorem metrics_zero_denominator_guard (df : List DailyRecord)
    (agency : Option String) :
    ∀ row ∈ calculate_campaign_metrics df agency,
      (row.Total_Cost = 0 → row.ROAS = row.Total_Revenue) ∧
      (row.Total_Paid_Calls = 0 → row.Cost_Per_Call = row.Total_Cost) ∧
      (row.Total_Calls = 0 → row.Revenue_Per_Call = row.Total_Revenue
        ∧ row.Conversion_Rate = row.Total_Sales * 100) ∧
      replace0 row.Total_Cost ≠ 0 ∧ replace0 row.Total_Paid_Calls ≠ 0 ∧
      replace0 row.Total_Calls ≠ 0 := by
  intro row hrow
  simp only [calculate_campaign_metrics] at hrow
  obtain ⟨k, _, rfl⟩ := List.mem_map.mp hrow
  obtain ⟨h1, h2, h3⟩ := aggRow_guard _ k
  exact ⟨h1, h2, h3, replace0_ne_zero _, replace0_ne_zero _,
    replace0_ne_zero _⟩

theorem days_active_ge_one_aux (df : List DailyRecord) :
    ∀ k ∈ groupKeys df, 1 ≤ (aggRow df k).Days_Active := by
  intro k hk
  have hk1 : k ∈ (df.map (·.campaign)).dedup :=
    (sortStrings_perm _).mem_iff.mp hk
  have hk2 : k ∈ df.map (·.campaign) := List.mem_dedup.mp hk1
  obtain ⟨r, hr, hrk⟩ := List.mem_map.mp hk2
  have hmem : r ∈ df.filter (·.campaign = k) :=
    List.mem_filter.mpr ⟨hr, by simp [hrk]⟩
  have hlen : 0 < (df.filter (·.campaign = k)).length :=
    List.length_pos.mpr (List.ne_nil_of_mem hmem)
  dsimp only [aggRow]
  exact_mod_cast hlen

/-- Claim C9: every row of the statistics table produced by
`calculate_campaign_metrics` on a non-empty record set has
`Days_Active >= 1`, so the capacity ceiling `Total_Calls / Days_Active`
used by `optimize_budget` never divides by zero on aggregator output. -/
theorem days_active_ge_one (df : List DailyRecord)
    (agency : Option String) (hne : df ≠ []) :
    ∀ row ∈ calculate_campaign_metrics df agency,
      1 ≤ row.Days_Active := by
  intro row hrow
  simp only [calculate_campaign_metrics] at hrow
  obtain ⟨k, hk, rfl⟩ := List.mem_map.mp hrow
  exact days_active_ge_one_aux _ k hk

theorem ceil_three_halves : (Int.ceil ((3 : ℚ) / 2) : ℤ) = 2 := by
  norm_num [Int.ceil_eq_iff]

theorem ceil_fifteen_halves : (Int.ceil ((15 : ℚ) / 2) : ℤ) = 8 := by
  norm_num [Int.ceil_eq_iff]

/-- Claim C8: aggregating two daily records of one campaign with
revenues [100, 200] and lead costs [50, 50] yields
`Total_Revenue = 300`, `Total_Cost = 100`, `ROAS = 3` and
`Days_Active = 2`. -/
theorem aggregation_two_records :
    (calculate_campaign_metrics recsAgg none).map
      (fun r => (r.Total_Revenue, r.Total_Cost, r.ROAS, r.Days_Active))
      = [(300, 100, 3, 2)] := by
  norm_num +decide [calculate_campaign_metrics, groupKeys, sortStrings,
    strInsertLe, aggRow, replace0, recsAgg]

set_option maxHeartbeats 16000000 in
/-- Claim C5 (amended): on the spec's two-campaign scenario, A (higher
Profit_Per_Call) is ranked and seeded first, then the incremental phase
fills A to its ceiling of 15 and B to 8 — one more than the spec's
claimed 7, because the strict ceiling check admits an increment from 7,
which is still below B's 7.5 ceiling — leaving 10 of the 200 budget. -/
theorem scenario_two_campaign_result :
    sortByProfitDesc (statsC5.filter (fun c => (1 : ℚ) ≤ c.ROAS))
        = [rowA5, rowB5] ∧
      optimize_budget statsC5 200 1 1 = (some [("A", 15), ("B", 8)], 10) := by
  constructor
  · norm_num [statsC5, rowA5, rowB5, mkRow, sortByProfitDesc, profInsert]
  · norm_num +decide [optimize_budget, optimize_budget_fuel, statsC5,
      rowA5, rowB5, mkRow, sortByProfitDesc, profInsert, seedPhase,
      incrLoop, findEligible, dictGet, dictSet, maxCallsOf, fuelBound,
      ceilCap, ceil_fifteen_halves]

set_option maxHeartbeats 16000000 in
/-- Claim C5 counterexample: in the spec's two-campaign scenario the
returned allocation gives B 8 calls, not the claimed cap of 7. -/
theorem scenario_b_gets_eight_cex :
    dictGet ((optimize_budget statsC5 200 1 1).1.getD []) "B" = 8 ∧
      ¬ ((8 : ℕ) ≤ 7) := by
  constructor
  · norm_num +decide [optimize_budget, optimize_budget_fuel, statsC5,
      rowA5, rowB5, mkRow, sortByProfitDesc, profInsert, seedPhase,
      incrLoop, findEligible, dictGet, dictSet, maxCallsOf, fuelBound,
      ceilCap, ceil_fifteen_halves]
  · decide

set_option maxHeartbeats 4000000 in
/-- Claim C2 counterexample: a qualifying campaign with
`Total_Calls = 0` has capacity ceiling 0, yet the seeding phase still
allocates it `min_calls = 1` call, violating
`allocation[c] <= ceil(avg_daily_calls[c] * 1.5)`. -/
theorem seeding_ignores_cap_cex :
    optimize_budget statsZ 10 1 1 = (some [("Z", 1)], 9) ∧
      ¬ ((1 : ℤ) ≤ Int.ceil (maxCallsOf (mkRow "Z" 1 1 0 1 0))) := by
  constructor
  · norm_num +decide [optimize_budget, optimize_budget_fuel, statsZ,
      mkRow, sortByProfitDesc, profInsert, seedPhase, incrLoop,
      findEligible, dictGet, dictSet, maxCallsOf, fuelBound, ceilCap]
  · norm_num [maxCallsOf, mkRow]

set_option maxHeartbeats 4000000 in
/-- Claim C6 counterexample: with `min_calls = 2` and budget 26, campaign
B is skipped by the seeding phase (cannot afford 2 calls at cost 6) but
receives a single call in the incremental phase, so it appears in the
allocation with fewer than `min_calls` calls. -/
theorem min_calls_floor_cex :
    optimize_budget statsSkip 26 2 1 = (some [("A", 2), ("B", 1)], 0) ∧
      ¬ (∀ p ∈ [(("A" : String), 2), ("B", 1)], 2 ≤ p.2) := by
  constructor
  · norm_num +decide [optimize_budget, optimize_budget_fuel, statsSkip,
      mkRow, sortByProfitDesc, profInsert, seedPhase, incrLoop,
      findEligible, dictGet, dictSet, maxCallsOf, fuelBound, ceilCap,
      ceil_three_halves, ceil_fifteen_halves]
  · decide

set_option maxHeartbeats 16000000 in
/-- Witness for claim C1 at the two-campaign scenario table. -/
theorem optimize_budget_spend_le_budget_witness :
    ((statsC5.map (·.name)).Nodup
        ∧ (∀ c ∈ statsC5, 0 ≤ c.Cost_Per_Call) ∧ (0 : ℚ) ≤ 200) ∧
      (spendOf statsC5 (optimize_budget statsC5 200 1 1).1 ≤ 200 ∧
        (optimize_budget statsC5 200 1 1).2
          = 200 - spendOf statsC5 (optimize_budget statsC5 200 1 1).1) :=
  ⟨⟨by decide, by norm_num [statsC5, rowA5, rowB5, mkRow], by norm_num⟩,
    optimize_budget_spend_le_budget statsC5 200 1 1 (by decide)
      (by norm_num [statsC5, rowA5, rowB5, mkRow]) (by norm_num)⟩

set_option maxHeartbeats 4000000 in
/-- Witness for claim C2 (amended) at the zero-capacity table: the
allocated single call is within `max min_calls (ceil of the ceiling)`. -/
theorem alloc_le_max_min_calls_cap_witness :
    ((statsZ.map (·.name)).Nodup
        ∧ (optimize_budget statsZ 10 1 1).1 = some [("Z", 1)]) ∧
      ∀ p ∈ ([("Z", 1)] : Alloc), ∃ c ∈ statsZ, c.name = p.1 ∧
        (p.2 : ℤ) ≤ max ((1 : ℕ) : ℤ) (Int.ceil (maxCallsOf c)) :=
  ⟨⟨by decide,
      by norm_num +decide [optimize_budget, optimize_budget_fuel, statsZ,
        mkRow, sortByProfitDesc, profInsert, seedPhase, incrLoop,
        findEligible, dictGet, dictSet, maxCallsOf, fuelBound, ceilCap]⟩,
    @alloc_le_max_min_calls_cap statsZ 10 1 1 (by decide) [("Z", 1)]
      (by norm_num +decide [optimize_budget, optimize_budget_fuel, statsZ,
        mkRow, sortByProfitDesc, profInsert, seedPhase, incrLoop,
        findEligible, dictGet, dictSet, maxCallsOf, fuelBound, ceilCap])⟩

/-- Witness for claim C3: against threshold 2, a table whose best ROAS is
1.5 yields the null allocation and the whole budget. -/
theorem no_qualifying_campaigns_null_witness :
    (∀ c ∈ statsLowRoas, c.ROAS < 2) ∧
      optimize_budget statsLowRoas 500 1 2 = (none, 500) :=
  ⟨by norm_num [statsLowRoas, mkRow],
    no_qualifying_campaigns_null statsLowRoas 500 1 2
      (by norm_num [statsLowRoas, mkRow])⟩

set_option maxHeartbeats 4000000 in
/-- Witness for claim C4 at a table with a disqualified campaign L. -/
theorem low_roas_never_allocated_witness :
    ((statsMixed.map (·.name)).Nodup ∧ rowMixL ∈ statsMixed
        ∧ rowMixL.ROAS < 1
        ∧ (optimize_budget statsMixed 200 1 1).1 = some [("A", 2)]) ∧
      rowMixL.name ∉ allocKeys [(("A" : String), 2)] :=
  ⟨⟨by decide, by simp [statsMixed], by norm_num [rowMixL, mkRow],
      by norm_num +decide [optimize_budget, optimize_budget_fuel,
        statsMixed, rowMixA, rowMixL, mkRow, sortByProfitDesc, profInsert,
        seedPhase, incrLoop, findEligible, dictGet, dictSet, maxCallsOf,
        fuelBound, ceilCap, ceil_three_halves]⟩,
    @low_roas_never_allocated statsMixed 200 1 1 (by decide) rowMixL
      (by simp [statsMixed]) (by norm_num [rowMixL, mkRow]) [("A", 2)]
      (by norm_num +decide [optimize_budget, optimize_budget_fuel,
        statsMixed, rowMixA, rowMixL, mkRow, sortByProfitDesc, profInsert,
        seedPhase, incrLoop, findEligible, dictGet, dictSet, maxCallsOf,
        fuelBound, ceilCap, ceil_three_halves])⟩

set_option maxHeartbeats 4000000 in
/-- Witness for claim C6 (amended) at the seeding-skip table. -/
theorem alloc_entries_positive_witness :
    ((1 : ℕ) ≤ 2
        ∧ (optimize_budget statsSkip 26 2 1).1 = some [("A", 2), ("B", 1)]) ∧
      ∀ p ∈ [(("A" : String), 2), ("B", 1)], 1 ≤ p.2 :=
  ⟨⟨by decide,
      by norm_num +decide [optimize_budget, optimize_budget_fuel,
        statsSkip, mkRow, sortByProfitDesc, profInsert, seedPhase,
        incrLoop, findEligible, dictGet, dictSet, maxCallsOf, fuelBound,
        ceilCap, ceil_three_halves, ceil_fifteen_halves]⟩,
    @alloc_entries_positive statsSkip 26 2 1 (by decide)
      [("A", 2), ("B", 1)]
      (by norm_num +decide [optimize_budget, optimize_budget_fuel,
        statsSkip, mkRow, sortByProfitDesc, profInsert, seedPhase,
        incrLoop, findEligible, dictGet, dictSet, maxCallsOf, fuelBound,
        ceilCap, ceil_three_halves, ceil_fifteen_halves])⟩

/-- Witness for claim C7 at a record whose cost, call and paid-call
sums are all zero. -/
theorem metrics_zero_denominator_guard_witness :
    (aggRow recsZero "X" ∈ calculate_campaign_metrics recsZero none) ∧
      (((aggRow recsZero "X").Total_Cost = 0
          → (aggRow recsZero "X").ROAS = (aggRow recsZero "X").Total_Revenue) ∧
        ((aggRow recsZero "X").Total_Paid_Calls = 0
          → (aggRow recsZero "X").Cost_Per_Call
            = (aggRow recsZero "X").Total_Cost) ∧
        ((aggRow recsZero "X").Total_Calls = 0
          → (aggRow recsZero "X").Revenue_Per_Call
              = (aggRow recsZero "X").Total_Revenue
            ∧ (aggRow recsZero "X").Conversion_Rate
              = (aggRow recsZero "X").Total_Sales * 100) ∧
        replace0 (aggRow recsZero "X").Total_Cost ≠ 0 ∧
        replace0 (aggRow recsZero "X").Total_Paid_Calls ≠ 0 ∧
        replace0 (aggRow recsZero "X").Total_Calls ≠ 0) :=
  ⟨by simp [calculate_campaign_metrics, groupKeys, sortStrings,
      strInsertLe, recsZero],
    metrics_zero_denominator_guard recsZero none _
      (by simp [calculate_campaign_metrics, groupKeys, sortStrings,
        strInsertLe, recsZero])⟩

/-- Witness for claim C9 at a one-record data set. -/
theorem days_active_ge_one_witness :
    (recsZero ≠ []
        ∧ aggRow recsZero "X" ∈ calculate_campaign_metrics recsZero none) ∧
      1 ≤ (aggRow recsZero "X").Days_Active :=
  ⟨⟨by simp [recsZero],
      by simp [calculate_campaign_metrics, groupKeys, sortStrings,
        strInsertLe, recsZero]⟩,
    days_active_ge_one recsZero none (by simp [recsZero]) _
      (by simp [calculate_campaign_metrics, groupKeys, sortStrings,
        strInsertLe, recsZero])⟩

/-- Witness for claim C10 at the two-campaign scenario table with three
units of extra fuel. -/
theorem optimize_budget_terminates_witness :
    ((∀ c ∈ statsC5, (1 : ℚ) ≤ c.ROAS → 0 < c.Days_Active)
        ∧ (∀ c ∈ statsC5, (1 : ℚ) ≤ c.ROAS → 0 ≤ c.Cost_Per_Call)) ∧
      optimize_budget_fuel 3 statsC5 200 1 1
        = optimize_budget statsC5 200 1 1 :=
  ⟨⟨by norm_num [statsC5, rowA5, rowB5, mkRow],
      by norm_num [statsC5, rowA5, rowB5, mkRow]⟩,
    optimize_budget_terminates statsC5 200 1 1
      (by norm_num [statsC5, rowA5, rowB5, mkRow])
      (by norm_num [statsC5, rowA5, rowB5, mkRow]) 3⟩
